import Mathlib

/-!
# Verification of the `meke_kon2` sanitizer

A shallow embedding of the two pure functions of `src/meke_kon2.py`:

* `sanitize_input : str → bool → str → (str, list[dict])` — the line-oriented
  text scrubber that masks URLs, removes blank lines and masks or removes
  personal-information fields, emitting an audit log;
* `get_content_or_none` — the defensive extraction of the `content` field of a
  model response.

Strings are modelled as `List Char` (`Str`).  `str.strip`, `str.splitlines`,
the Python regexes `https?://\S+`, `^(?P<key>[^：:]+)[：:]\s*(?P<val>.*)$` and
`(様|さま)` are modelled explicitly, following CPython's semantics
(`\s` / `str.strip` use the Unicode whitespace predicate, `str.splitlines`
splits on the Unicode line-boundary set, without a trailing empty piece).
-/

set_option maxHeartbeats 1600000

namespace MekeKon2

abbrev Str := List Char

/-- CPython's whitespace predicate (`str.isspace`, `str.strip`, regex `\s`
on `str` patterns): ASCII whitespace, the C1 controls `\x1c`–`\x1f`, NEL,
NBSP and the Unicode space separators. -/
def isPySpace (c : Char) : Bool :=
  c = ' ' || c = '\t' || c = '\n' || c = '\x0b' || c = '\x0c' || c = '\r' ||
  c = '\x1c' || c = '\x1d' || c = '\x1e' || c = '\x1f' ||
  c = '\x85' || c = ' ' || c = ' ' ||
  (' ' ≤ c && c ≤ ' ') ||
  c = ' ' || c = ' ' || c = ' ' || c = ' ' || c = '　'

/-- The line boundaries recognised by `str.splitlines`. -/
def isLineBreak (c : Char) : Bool :=
  c = '\n' || c = '\r' || c = '\x0b' || c = '\x0c' ||
  c = '\x1c' || c = '\x1d' || c = '\x1e' ||
  c = '\x85' || c = ' ' || c = ' '

/-- `str.rstrip()`: drop trailing whitespace. -/
def rstrip (l : Str) : Str := (l.reverse.dropWhile isPySpace).reverse

/-- `str.strip()`: drop leading and trailing whitespace. -/
def strip (l : Str) : Str := rstrip (l.dropWhile isPySpace)

/-- `str.splitlines()`: split on line boundaries (`\r\n` counts as a single
boundary); a terminal boundary produces no final empty piece. -/
def splitlines : Str → List Str
  | [] => []
  | '\r' :: '\n' :: rest => [] :: splitlines rest
  | c :: rest =>
    if isLineBreak c then [] :: splitlines rest
    else
      match splitlines rest with
      | [] => [[c]]
      | p :: ps => (c :: p) :: ps

/-- Half-width or full-width colon, the separators of `kv_pattern`. -/
def isColonChar (c : Char) : Bool := c = '：' || c = ':'

/-- The match of `kv_pattern = ^(?P<key>[^：:]+)[：:]\s*(?P<val>.*)$`:
the line matches iff it contains a colon that is not its first character;
the `key` group is everything before the first colon, and the returned second
component is everything after that colon (the `\s*` of the pattern is applied
by the caller, mirroring the source, which immediately strips the value). -/
def kvMatch (l : Str) : Option (Str × Str) :=
  match l.dropWhile (fun c => !isColonChar c) with
  | [] => none
  | _ :: after =>
    if l.takeWhile (fun c => !isColonChar c) = [] then none
    else some (l.takeWhile (fun c => !isColonChar c), after)

/-- Python's `needle in hay` substring test. -/
def listHasSub (hay needle : Str) : Bool :=
  match hay with
  | [] => needle.isEmpty
  | _ :: t => needle.isPrefixOf hay || listHasSub t needle

/-- The fixed list of sensitive field names of `sanitize_input`. -/
def sensitive_fields : List Str :=
  ["氏名", "フリガナ", "メールアドレス", "電話番号",
   "携帯番号", "郵便番号", "住所"].map String.data

/-- `any(field in key for field in sensitive_fields)`. -/
def isSensitiveKey (key : Str) : Bool :=
  sensitive_fields.any (fun f => listHasSub key f)

/-- The literal replacement token of the URL mask. -/
def urlToken : Str := "[URL]".data

/-- Try to match `p` (a scheme literal) followed by `\S+` at the head of `l`;
on success return the full matched substring and the remainder of `l`. -/
def tryScheme (p l : Str) : Option (Str × Str) :=
  if p.isPrefixOf l then
    let after := l.drop p.length
    let run := after.takeWhile (fun c => !isPySpace c)
    if run = [] then none
    else some (p ++ run, after.dropWhile (fun c => !isPySpace c))
  else none

/-- A match of `https?://\S+` anchored at the head of `l` (the regex engine
tries the alternative with `s` first). -/
def urlMatchAt (l : Str) : Option (Str × Str) :=
  match tryScheme "https://".data l with
  | some r => some r
  | none => tryScheme "http://".data l

/-- Fuelled left-to-right scan of `re.sub(r'https?://\S+', ..., line)`:
returns the line with every match replaced by `[URL]`, together with the
list of matched substrings in left-to-right order. -/
def urlScanF : Nat → Str → Str × List Str
  | _, [] => ([], [])
  | 0, l => (l, [])
  | Nat.succ fuel, c :: rest =>
    match urlMatchAt (c :: rest) with
    | some (m, r) =>
      let p := urlScanF fuel r
      (urlToken ++ p.1, m :: p.2)
    | none =>
      let p := urlScanF fuel rest
      (c :: p.1, p.2)

/-- `re.sub(r'https?://\S+', '[URL]', l)` together with the matches. -/
def urlScan (l : Str) : Str × List Str := urlScanF l.length l

/-- The left-to-right enumeration of the disjoint matches of
`https?://\S+` in a line (fuelled). -/
def urlMatchesF : Nat → Str → List Str
  | _, [] => []
  | 0, _ => []
  | Nat.succ fuel, c :: rest =>
    match urlMatchAt (c :: rest) with
    | some (m, r) => m :: urlMatchesF fuel r
    | none => urlMatchesF fuel rest

/-- The disjoint matches of `https?://\S+` in a line. -/
def urlMatches (l : Str) : List Str := urlMatchesF l.length l

/-- Number of positions of `hay` at which `needle` occurs as a substring. -/
def countSub (needle : Str) : Str → Nat
  | [] => 0
  | c :: rest =>
    (if needle.isPrefixOf (c :: rest) then 1 else 0) + countSub needle rest

/-- The `action` strings of the audit log. -/
inductive Action where
  | masked_url
  | removed_empty_line
  | removed_sensitive_blank
  | removed_sensitive_field
  | masked_sensitive_field
deriving DecidableEq, Repr

/-- One log dict `{line_no, action, field, original}`. -/
structure LogEntry where
  line_no : Nat
  action : Action
  field : Str
  original : Str
deriving DecidableEq, Repr

/-- The `masked_url` entries appended by the `re.sub` callback for line `i`. -/
def mkUrlLogs (i : Nat) (us : List Str) : List LogEntry :=
  us.map (fun u => ⟨i, Action.masked_url, [], u⟩)

/-- The body of the per-line loop of `sanitize_input` after URL masking:
`raw` is the raw line, `line` the line after URL masking, `urlLogs` the log
entries already appended by the URL mask.  Returns the line kept in the
output (if any) and the log entries for this line. -/
def processBody (pii_mode : String) (i : Nat) (raw line : Str)
    (urlLogs : List LogEntry) : Option Str × List LogEntry :=
  if strip line = [] then
    (none, urlLogs ++ [⟨i, Action.removed_empty_line, [], raw⟩])
  else
    match kvMatch line with
    | some (key0, after) =>
      let key := strip key0
      let val := strip (after.dropWhile isPySpace)
      if isSensitiveKey key then
        if val = [] ∨ val = "様".data ∨ val = "さま".data then
          (none, urlLogs ++ [⟨i, Action.removed_sensitive_blank, key, raw⟩])
        else if pii_mode = "remove" then
          (none, urlLogs ++ [⟨i, Action.removed_sensitive_field, key, raw⟩])
        else
          (some (key ++ "： [MASKED]".data),
           urlLogs ++ [⟨i, Action.masked_sensitive_field, key, raw⟩])
      else (some line, urlLogs)
    | none => (some line, urlLogs)

/-- The whole per-line loop body for line number `i`. -/
def processLine (mask_url : Bool) (pii_mode : String) (i : Nat) (raw : Str) :
    Option Str × List LogEntry :=
  let m := if mask_url then urlScan raw else (raw, [])
  processBody pii_mode i raw m.1 (mkUrlLogs i m.2)

/-- The loop of `sanitize_input` over the enumerated lines, starting at
line number `i`. -/
def runLines (mask_url : Bool) (pii_mode : String) :
    Nat → List Str → List Str × List LogEntry
  | _, [] => ([], [])
  | i, raw :: rest =>
    let p := processLine mask_url pii_mode i raw
    let q := runLines mask_url pii_mode (i + 1) rest
    (p.1.toList ++ q.1, p.2 ++ q.2)

/-- `"\n".join(cleaned_lines)`. -/
def joinNL : List Str → Str
  | [] => []
  | [x] => x
  | x :: y :: rest => x ++ '\n' :: joinNL (y :: rest)

/-- `sanitize_input(text, mask_url, pii_mode)` of `src/meke_kon2.py`. -/
def sanitize_input (text : Str) (mask_url : Bool) (pii_mode : String) :
    Str × List LogEntry :=
  let r := runLines mask_url pii_mode 1 (splitlines text)
  (joinNL r.1, r.2)

/-! ## Model of the dynamic response probed by `get_content_or_none` -/

/-- The dynamic value of the `content` attribute: a Python `str`, or any
non-string value. -/
inductive PyContent where
  | pyStr (s : Str)
  | nonStr
deriving DecidableEq, Repr

/-- A `message` object; `content = none` models a missing `content`
attribute or a `None` value (both make `getattr` yield `None`). -/
structure PyMessage where
  content : Option PyContent
deriving DecidableEq, Repr

/-- A `choices[k]` object; `message = none` models a missing `message`
attribute or a `None` value. -/
structure PyChoice where
  message : Option PyMessage
deriving DecidableEq, Repr

/-- A response value: falsy (`None`, …), or an object whose `choices`
attribute is missing (`none`) or a list. -/
inductive PyResp where
  | falsy
  | obj (choices : Option (List PyChoice))
deriving DecidableEq, Repr

/-- `get_content_or_none(resp)` of `src/meke_kon2.py`: return the stripped
`content` when it is a non-blank string, otherwise `None`. -/
def get_content_or_none : PyResp → Option Str
  | .falsy => none
  | .obj none => none
  | .obj (some []) => none
  | .obj (some (ch :: _)) =>
    match ch.message with
    | none => none
    | some msg =>
      match msg.content with
      | some (.pyStr s) => if strip s = [] then none else some (strip s)
      | some .nonStr => none
      | none => none

/-! ## Basic list lemmas -/

theorem dropWhile_head_false {p : Char → Bool} :
    ∀ {l r : Str} {c : Char}, l.dropWhile p = c :: r → p c = false := by
  intro l
  induction l with
  | nil => intro r c h; simp [List.dropWhile] at h
  | cons a t ih =>
    intro r c h
    by_cases hp : p a = true
    · rw [List.dropWhile_cons_of_pos hp] at h
      exact ih h
    · rw [List.dropWhile_cons_of_neg hp] at h
      cases h
      simpa using hp

theorem dropWhile_idem (p : Char → Bool) (l : Str) :
    (l.dropWhile p).dropWhile p = l.dropWhile p := by
  cases h : l.dropWhile p with
  | nil => simp
  | cons c r =>
    have hc := dropWhile_head_false h
    simp [List.dropWhile, hc]

theorem takeWhile_append_all {p : Char → Bool} :
    ∀ {k : Str}, (∀ c ∈ k, p c = true) → ∀ x : Str, (k ++ x).takeWhile p = k ++ x.takeWhile p := by
  intro k
  induction k with
  | nil => intro _ x; simp
  | cons a t ih =>
    intro h x
    have ha : p a = true := h a (by simp)
    simp only [List.cons_append, List.takeWhile_cons_of_pos ha]
    rw [ih (fun c hc => h c (by simp [hc]))]

theorem dropWhile_append_all {p : Char → Bool} :
    ∀ {k : Str}, (∀ c ∈ k, p c = true) → ∀ x : Str, (k ++ x).dropWhile p = x.dropWhile p := by
  intro k
  induction k with
  | nil => intro _ x; simp
  | cons a t ih =>
    intro h x
    have ha : p a = true := h a (by simp)
    simp only [List.cons_append, List.dropWhile_cons_of_pos ha]
    exact ih (fun c hc => h c (by simp [hc])) x

theorem mem_of_mem_dropWhile {p : Char → Bool} {l : Str} {c : Char}
    (h : c ∈ l.dropWhile p) : c ∈ l :=
  (List.dropWhile_sublist p).mem h

theorem mem_of_mem_takeWhile {p : Char → Bool} {l : Str} {c : Char}
    (h : c ∈ l.takeWhile p) : c ∈ l :=
  (List.takeWhile_sublist p).mem h

/-! ## `strip` lemmas -/

theorem rstrip_prefix (l : Str) : ∃ s, l = rstrip l ++ s ∧ ∀ c ∈ s, isPySpace c = true := by
  refine ⟨(l.reverse.takeWhile isPySpace).reverse, ?_, ?_⟩
  · have h : l = (List.takeWhile isPySpace l.reverse ++ List.dropWhile isPySpace l.reverse).reverse := by
      rw [List.takeWhile_append_dropWhile, List.reverse_reverse]
    rw [rstrip]
    conv_lhs => rw [h]
    rw [List.reverse_append]
  · intro c hc
    rw [List.mem_reverse] at hc
    exact List.mem_takeWhile_imp hc

theorem mem_of_mem_rstrip {l : Str} {c : Char} (h : c ∈ rstrip l) : c ∈ l := by
  obtain ⟨s, hs, -⟩ := rstrip_prefix l
  rw [hs]
  exact List.mem_append_left _ h

theorem mem_of_mem_strip {l : Str} {c : Char} (h : c ∈ strip l) : c ∈ l :=
  mem_of_mem_dropWhile (mem_of_mem_rstrip h)

theorem rstrip_eq_nil_iff {l : Str} : rstrip l = [] ↔ ∀ c ∈ l, isPySpace c = true := by
  constructor
  · intro h c hc
    obtain ⟨s, hs, hsp⟩ := rstrip_prefix l
    rw [hs, h, List.nil_append] at hc
    exact hsp c hc
  · intro h
    have : l.reverse.dropWhile isPySpace = [] := by
      rw [List.dropWhile_eq_nil_iff]
      intro c hc
      exact h c (List.mem_reverse.mp hc)
    simp [rstrip, this]

theorem strip_eq_nil_iff {l : Str} : strip l = [] ↔ ∀ c ∈ l, isPySpace c = true := by
  unfold strip
  rw [rstrip_eq_nil_iff]
  constructor
  · intro h c hc
    by_cases hsp : isPySpace c = true
    · exact hsp
    · have hsplit := List.takeWhile_append_dropWhile isPySpace l
      rw [← hsplit] at hc
      rcases List.mem_append.mp hc with h1 | h2
      · exact List.mem_takeWhile_imp h1
      · exact h c h2
  · intro h c hc
    exact h c (mem_of_mem_dropWhile hc)

theorem strip_ne_nil {l : Str} {c : Char} (hc : c ∈ l) (hsp : isPySpace c = false) :
    strip l ≠ [] := by
  intro h
  have := strip_eq_nil_iff.mp h c hc
  rw [hsp] at this
  exact Bool.false_ne_true this

theorem rstrip_idem (l : Str) : rstrip (rstrip l) = rstrip l := by
  simp [rstrip, List.reverse_reverse, dropWhile_idem]

theorem strip_idem (l : Str) : strip (strip l) = strip l := by
  unfold strip
  set y := l.dropWhile isPySpace with hy
  have hdw : (rstrip y).dropWhile isPySpace = rstrip y := by
    cases hr : rstrip y with
    | nil => simp
    | cons c r =>
      obtain ⟨s, hs, -⟩ := rstrip_prefix y
      rw [hr] at hs
      have hc : isPySpace c = false := by
        have : y.dropWhile isPySpace = y := by rw [hy, dropWhile_idem]
        have hy2 : y = c :: (r ++ s) := by rw [hs]; simp
        have := dropWhile_head_false (l := y) (by rw [this, hy2])
        exact this
      simp [List.dropWhile, hc]
  rw [hdw, rstrip_idem]

/-! ## `splitlines` lemmas -/

theorem splitlines_cons_of_not_break {c : Char} (rest : Str) (h : isLineBreak c = false) :
    splitlines (c :: rest) =
      match splitlines rest with
      | [] => [[c]]
      | p :: ps => (c :: p) :: ps := by
  have hr : ∀ r1 : Str, c = '\r' → rest = '\n' :: r1 → False := by
    intro r1 hc _
    rw [hc] at h
    exact absurd h (by decide)
  rw [splitlines.eq_3 c rest hr, if_neg (by simp [h])]

theorem splitlines_newline_cons (rest : Str) :
    splitlines ('\n' :: rest) = [] :: splitlines rest := by
  have hr : ∀ r1 : Str, '\n' = '\r' → rest = '\n' :: r1 → False := by
    intro r1 hc _
    exact absurd hc (by decide)
  rw [splitlines.eq_3 '\n' rest hr, if_pos (by decide)]

theorem splitlines_break_free :
    ∀ l : Str, ∀ piece ∈ splitlines l, ∀ c ∈ piece, isLineBreak c = false := by
  intro l
  induction l using splitlines.induct with
  | case1 => simp [splitlines]
  | case2 rest ih =>
    intro piece hp
    rw [splitlines.eq_2] at hp
    rcases List.mem_cons.mp hp with h | h
    · subst h; simp
    · exact ih piece h
  | case3 c rest hcr hbr ih =>
    intro piece hp
    rw [splitlines.eq_3 c rest hcr, if_pos hbr] at hp
    rcases List.mem_cons.mp hp with h | h
    · subst h; simp
    · exact ih piece h
  | case4 c rest hcr hbr hnil ih =>
    intro piece hp
    rw [splitlines.eq_3 c rest hcr, if_neg hbr, hnil] at hp
    simp only [List.mem_singleton] at hp
    subst hp
    intro d hd
    simp only [List.mem_singleton] at hd
    subst hd
    exact Bool.not_eq_true _ ▸ (by simpa using hbr)
  | case5 c rest hcr hbr p ps hcons ih =>
    intro piece hp
    rw [splitlines.eq_3 c rest hcr, if_neg hbr, hcons] at hp
    rcases List.mem_cons.mp hp with h | h
    · subst h
      intro d hd
      rcases List.mem_cons.mp hd with h2 | h2
      · subst h2; simpa using hbr
      · exact ih p (by rw [hcons]; simp) d h2
    · exact ih piece (by rw [hcons]; simp [h])

theorem splitlines_append (x s : Str) (hx : ∀ c ∈ x, isLineBreak c = false) :
    splitlines (x ++ s) =
      match splitlines s with
      | [] => if x = [] then [] else [x]
      | p :: ps => (x ++ p) :: ps := by
  induction x with
  | nil =>
    simp only [List.nil_append]
    cases splitlines s <;> simp
  | cons a t ih =>
    have ha : isLineBreak a = false := hx a (by simp)
    rw [List.cons_append, splitlines_cons_of_not_break _ ha,
        ih (fun c hc => hx c (by simp [hc]))]
    cases hs : splitlines s with
    | nil =>
      by_cases ht : t = []
      · subst ht; simp
      · simp [ht]
    | cons p ps => simp

theorem splitlines_joinNL :
    ∀ outs : List Str,
      (∀ piece ∈ outs, piece ≠ [] ∧ ∀ c ∈ piece, isLineBreak c = false) →
      splitlines (joinNL outs) = outs := by
  intro outs
  induction outs with
  | nil => intro _; rfl
  | cons x rest ih =>
    intro h
    cases rest with
    | nil =>
      have hx := h x (by simp)
      show splitlines (joinNL [x]) = [x]
      have : joinNL [x] = x ++ [] := by simp [joinNL]
      rw [this, splitlines_append x [] hx.2]
      simp [splitlines, hx.1]
    | cons y rest2 =>
      have hx := h x (by simp)
      have hrest : ∀ piece ∈ y :: rest2, piece ≠ [] ∧ ∀ c ∈ piece, isLineBreak c = false :=
        fun piece hp => h piece (by simp [hp])
      show splitlines (x ++ '\n' :: joinNL (y :: rest2)) = x :: y :: rest2
      rw [splitlines_append x _ hx.2, splitlines_newline_cons, ih hrest]
      simp

/-! ## URL-scanner lemmas -/

theorem isPrefixOf_eq_append {p l : Str} (h : p.isPrefixOf l = true) :
    l = p ++ l.drop p.length := by
  obtain ⟨t, ht⟩ := List.isPrefixOf_iff_prefix.mp h
  rw [← ht, List.drop_left]

theorem tryScheme_eq_some {p l m r : Str} (h : tryScheme p l = some (m, r)) :
    l = m ++ r ∧ m ≠ [] := by
  simp only [tryScheme] at h
  by_cases hp : p.isPrefixOf l = true
  · rw [if_pos hp] at h
    by_cases hrun : (l.drop p.length).takeWhile (fun c => !isPySpace c) = []
    · rw [if_pos hrun] at h
      exact absurd h (by simp)
    · rw [if_neg hrun] at h
      have hmr := Option.some.inj h
      have hm : m = p ++ (l.drop p.length).takeWhile (fun c => !isPySpace c) :=
        (Prod.mk.injEq _ _ _ _ ▸ hmr).1.symm
      have hr : r = (l.drop p.length).dropWhile (fun c => !isPySpace c) :=
        (Prod.mk.injEq _ _ _ _ ▸ hmr).2.symm
      constructor
      · rw [hm, hr, List.append_assoc, List.takeWhile_append_dropWhile]
        exact isPrefixOf_eq_append hp
      · rw [hm]
        intro hnil
        exact hrun (List.append_eq_nil.mp hnil).2
  · rw [if_neg hp] at h
    exact absurd h (by simp)

theorem urlMatchAt_eq_some {l m r : Str} (h : urlMatchAt l = some (m, r)) :
    l = m ++ r ∧ m ≠ [] := by
  simp only [urlMatchAt] at h
  cases h1 : tryScheme "https://".data l with
  | some v =>
    rw [h1] at h
    cases v with
    | mk a b =>
      have := Option.some.inj h
      cases this
      exact tryScheme_eq_some h1
  | none =>
    rw [h1] at h
    exact tryScheme_eq_some h

theorem urlScanF_nil (f : Nat) : urlScanF f [] = ([], []) := by cases f <;> rfl

theorem urlMatchesF_nil (f : Nat) : urlMatchesF f [] = [] := by cases f <;> rfl

theorem urlScanF_snd_eq_matches :
    ∀ (f : Nat) (l : Str), (urlScanF f l).2 = urlMatchesF f l := by
  intro f
  induction f with
  | zero => intro l; cases l <;> rfl
  | succ f ih =>
    intro l
    cases l with
    | nil => rfl
    | cons c rest =>
      cases hm : urlMatchAt (c :: rest) with
      | none => simp [urlScanF, urlMatchesF, hm, ih]
      | some mr =>
        cases mr with
        | mk m r => simp [urlScanF, urlMatchesF, hm, ih]

theorem urlScan_snd_eq_matches (l : Str) : (urlScan l).2 = urlMatches l :=
  urlScanF_snd_eq_matches l.length l

theorem urlScanF_chars :
    ∀ (f : Nat) (l : Str) (c : Char), c ∈ (urlScanF f l).1 → c ∈ l ∨ c ∈ urlToken := by
  intro f
  induction f with
  | zero =>
    intro l c hc
    cases l with
    | nil => rw [urlScanF_nil] at hc; simp at hc
    | cons a rest => exact Or.inl hc
  | succ f ih =>
    intro l c hc
    cases l with
    | nil => rw [urlScanF_nil] at hc; simp at hc
    | cons a rest =>
      cases hm : urlMatchAt (a :: rest) with
      | some mr =>
        cases mr with
        | mk m r =>
          simp only [urlScanF, hm] at hc
          rcases List.mem_append.mp hc with h | h
          · exact Or.inr h
          · rcases ih r c h with h2 | h2
            · left
              rw [(urlMatchAt_eq_some hm).1]
              exact List.mem_append_right _ h2
            · exact Or.inr h2
      | none =>
        simp only [urlScanF, hm] at hc
        rcases List.mem_cons.mp hc with h | h
        · exact Or.inl (h ▸ List.mem_cons_self a rest)
        · rcases ih rest c h with h2 | h2
          · exact Or.inl (List.mem_cons_of_mem a h2)
          · exact Or.inr h2

theorem urlScan_chars {l : Str} {c : Char} (h : c ∈ (urlScan l).1) :
    c ∈ l ∨ c ∈ urlToken :=
  urlScanF_chars l.length l c h

/-! ## `countSub` lemmas -/

theorem countSub_cons (n : Str) (c : Char) (rest : Str) :
    countSub n (c :: rest) =
      (if n.isPrefixOf (c :: rest) = true then 1 else 0) + countSub n rest := rfl

theorem countSub_le_append (n : Str) : ∀ a b : Str, countSub n b ≤ countSub n (a ++ b) := by
  intro a
  induction a with
  | nil => intro b; simp
  | cons c t ih =>
    intro b
    rw [List.cons_append, countSub_cons]
    exact le_add_of_nonneg_of_le (Nat.zero_le _) (ih b)

theorem isPrefixOf_append_sep {sep : Char} :
    ∀ (n : Str), (∀ c ∈ n, c ≠ sep) →
      ∀ (a b : Str), n.isPrefixOf (a ++ sep :: b) = n.isPrefixOf a := by
  intro n
  induction n with
  | nil => intro _ a b; simp [List.isPrefixOf]
  | cons d n' ih =>
    intro h a b
    cases a with
    | nil =>
      have hd : d ≠ sep := h d (by simp)
      simp [List.isPrefixOf, hd]
    | cons x a' =>
      simp only [List.cons_append, List.isPrefixOf, List.append_eq]
      rw [ih (fun c hc => h c (by simp [hc])) a' b]

theorem countSub_append_sep {sep : Char} {n : Str}
    (hsep : ∀ c ∈ n, c ≠ sep) (hne : n ≠ []) :
    ∀ a b : Str, countSub n (a ++ sep :: b) = countSub n a + countSub n b := by
  intro a
  induction a with
  | nil =>
    intro b
    simp only [List.nil_append, countSub_cons]
    have : n.isPrefixOf (sep :: b) = false := by
      have := isPrefixOf_append_sep n hsep [] b
      simp only [List.nil_append] at this
      rw [this]
      cases n with
      | nil => exact absurd rfl hne
      | cons d n' => simp [List.isPrefixOf]
    rw [this]
    simp [countSub]
  | cons c t ih =>
    intro b
    rw [List.cons_append, countSub_cons, countSub_cons, ← List.cons_append,
        isPrefixOf_append_sep n hsep (c :: t) b, ih b]
    omega

theorem countSub_urlToken_append (x : Str) :
    countSub urlToken (urlToken ++ x) = 1 + countSub urlToken x := by
  show countSub urlToken ('[' :: 'U' :: 'R' :: 'L' :: ']' :: x) = 1 + countSub urlToken x
  rw [countSub_cons, countSub_cons, countSub_cons, countSub_cons, countSub_cons]
  have h0 : urlToken.isPrefixOf ('[' :: 'U' :: 'R' :: 'L' :: ']' :: x) = true := by
    show ('[' == '[' && _) = true
    simp [List.isPrefixOf]
  have h1 : urlToken.isPrefixOf ('U' :: 'R' :: 'L' :: ']' :: x) = false := by
    simp [urlToken, List.isPrefixOf]
  have h2 : urlToken.isPrefixOf ('R' :: 'L' :: ']' :: x) = false := by
    simp [urlToken, List.isPrefixOf]
  have h3 : urlToken.isPrefixOf ('L' :: ']' :: x) = false := by
    simp [urlToken, List.isPrefixOf]
  have h4 : urlToken.isPrefixOf (']' :: x) = false := by
    simp [urlToken, List.isPrefixOf]
  rw [h0, h1, h2, h3, h4]
  norm_num

theorem countSub_head_eq_zero {n : Str} {c : Char} {rest : Str}
    (h : countSub n (c :: rest) = 0) :
    n.isPrefixOf (c :: rest) = false ∧ countSub n rest = 0 := by
  rw [countSub_cons] at h
  by_cases hp : n.isPrefixOf (c :: rest) = true
  · rw [if_pos hp] at h; omega
  · rw [if_neg hp] at h
    exact ⟨Bool.not_eq_true _ ▸ hp, by omega⟩

theorem countSub_suffix_zero {n a b : Str} (h : countSub n (a ++ b) = 0) :
    countSub n b = 0 :=
  Nat.le_antisymm (h ▸ countSub_le_append n a b) (Nat.zero_le _)

theorem urlScanF_isPrefixOf_no_bracket :
    ∀ (f : Nat) (l s : Str), (∀ c ∈ s, c ≠ '[') →
      s.isPrefixOf (urlScanF f l).1 = true → s.isPrefixOf l = true := by
  intro f
  induction f with
  | zero =>
    intro l s _ h
    cases l with
    | nil => rwa [urlScanF_nil] at h
    | cons a rest => exact h
  | succ f ih =>
    intro l s hs h
    cases l with
    | nil => rwa [urlScanF_nil] at h
    | cons a rest =>
      cases s with
      | nil => simp [List.isPrefixOf]
      | cons d s' =>
        cases hm : urlMatchAt (a :: rest) with
        | some mr =>
          cases mr with
          | mk m r =>
            simp only [urlScanF, hm] at h
            have hd : d = '[' := by
              have : urlToken ++ (urlScanF f r).1 = '[' :: ('U' :: 'R' :: 'L' :: ']' :: (urlScanF f r).1) := rfl

              rw [this] at h
              simp only [List.isPrefixOf, Bool.and_eq_true, beq_iff_eq] at h
              exact h.1
            exact absurd hd (hs d (by simp))
        | none =>
          simp only [urlScanF, hm] at h
          simp only [List.isPrefixOf, Bool.and_eq_true, beq_iff_eq] at h ⊢
          refine ⟨h.1, ?_⟩
          exact ih rest s' (fun c hc => hs c (by simp [hc])) h.2

theorem urlScanF_countSub :
    ∀ (f : Nat) (l : Str), countSub urlToken l = 0 →
      countSub urlToken (urlScanF f l).1 = (urlScanF f l).2.length := by
  intro f
  induction f with
  | zero =>
    intro l h
    cases l with
    | nil => rw [urlScanF_nil]; rfl
    | cons a rest => exact h
  | succ f ih =>
    intro l h
    cases l with
    | nil => rw [urlScanF_nil]; rfl
    | cons a rest =>
      cases hm : urlMatchAt (a :: rest) with
      | some mr =>
        cases mr with
        | mk m r =>
          simp only [urlScanF, hm]
          rw [countSub_urlToken_append]
          have hr : countSub urlToken r = 0 := by
            have hl := (urlMatchAt_eq_some hm).1
            exact countSub_suffix_zero (hl ▸ h)
          rw [ih r hr]
          simp only [List.length_cons]
          omega
      | none =>
        simp only [urlScanF, hm]
        obtain ⟨hpf, hrest⟩ := countSub_head_eq_zero h
        rw [countSub_cons]
        have hnp : urlToken.isPrefixOf (a :: (urlScanF f rest).1) = false := by
          by_cases hq : urlToken.isPrefixOf (a :: (urlScanF f rest).1) = true
          · exfalso
            have huf : urlToken = '[' :: "URL]".data := rfl
            rw [huf] at hq
            simp only [List.isPrefixOf, Bool.and_eq_true, beq_iff_eq] at hq
            have h2 : List.isPrefixOf "URL]".data rest = true :=
              urlScanF_isPrefixOf_no_bracket f rest "URL]".data (by decide) hq.2
            have h3 : urlToken.isPrefixOf (a :: rest) = true := by
              rw [huf, hq.1]
              simp only [List.isPrefixOf, Bool.and_eq_true, beq_iff_eq]
              exact ⟨by trivial, h2⟩
            simp [hpf] at h3
          · exact Bool.not_eq_true _ ▸ hq
        rw [hnp, ih rest hrest]
        simp

/-! ## `kvMatch` lemmas -/

theorem kvMatch_eq_some {l k v : Str} (h : kvMatch l = some (k, v)) :
    k ≠ [] ∧ (∀ c ∈ k, isColonChar c = false) ∧
      ∃ c, isColonChar c = true ∧ l = k ++ c :: v := by
  simp only [kvMatch] at h
  cases hd : l.dropWhile (fun c => !isColonChar c) with
  | nil => rw [hd] at h; simp at h
  | cons c0 after =>
    rw [hd] at h
    dsimp only at h
    by_cases hk : l.takeWhile (fun c => !isColonChar c) = []
    · rw [if_pos hk] at h; simp at h
    · rw [if_neg hk] at h
      have hkv := Option.some.inj h
      have h1 : k = l.takeWhile (fun c => !isColonChar c) :=
        ((Prod.mk.injEq _ _ _ _).mp hkv).1.symm
      have h2 : v = after := ((Prod.mk.injEq _ _ _ _).mp hkv).2.symm
      refine ⟨h1 ▸ hk, ?_, c0, ?_, ?_⟩
      · intro c hc
        rw [h1] at hc
        have := List.mem_takeWhile_imp hc
        simpa using this
      · have := dropWhile_head_false hd
        simpa using this
      · rw [h1, h2, ← hd, List.takeWhile_append_dropWhile]

theorem kvMatch_reconstruct {k : Str} (hk : ∀ c ∈ k, isColonChar c = false)
    (hne : k ≠ []) {c : Char} (hc : isColonChar c = true) (v : Str) :
    kvMatch (k ++ c :: v) = some (k, v) := by
  have ht : (k ++ c :: v).takeWhile (fun x => !isColonChar x) = k := by
    rw [takeWhile_append_all (fun x hx => by simp [hk x hx]) (c :: v)]
    rw [List.takeWhile_cons_of_neg (by simp [hc])]
    simp
  have hdw : (k ++ c :: v).dropWhile (fun x => !isColonChar x) = c :: v := by
    rw [dropWhile_append_all (fun x hx => by simp [hk x hx]) (c :: v)]
    rw [List.dropWhile_cons_of_neg (by simp [hc])]
  simp only [kvMatch, hdw, ht]
  rw [if_neg hne]

/-! ## Per-line branch lemmas -/

/-- The removal actions of the log (claim C8's removal set). -/
def isRemoval (e : LogEntry) : Bool :=
  decide (e.action = Action.removed_empty_line ∨
    e.action = Action.removed_sensitive_blank ∨
    e.action = Action.removed_sensitive_field)

theorem processBody_blank {pm : String} {i : Nat} {raw line : Str} {ul : List LogEntry}
    (h : strip line = []) :
    processBody pm i raw line ul = (none, ul ++ [⟨i, Action.removed_empty_line, [], raw⟩]) := by
  simp only [processBody, if_pos h]

theorem processBody_nokv {pm : String} {i : Nat} {raw line : Str} {ul : List LogEntry}
    (h : ¬ strip line = []) (hkv : kvMatch line = none) :
    processBody pm i raw line ul = (some line, ul) := by
  simp only [processBody, if_neg h, hkv]

theorem processBody_nonsensitive {pm : String} {i : Nat} {raw line k0 a : Str}
    {ul : List LogEntry} (h : ¬ strip line = [])
    (hkv : kvMatch line = some (k0, a)) (hs : isSensitiveKey (strip k0) = false) :
    processBody pm i raw line ul = (some line, ul) := by
  simp only [processBody, if_neg h, hkv, hs]
  simp

theorem processBody_sensitive_blank {pm : String} {i : Nat} {raw line k0 a : Str}
    {ul : List LogEntry} (h : ¬ strip line = [])
    (hkv : kvMatch line = some (k0, a)) (hs : isSensitiveKey (strip k0) = true)
    (hv : strip (a.dropWhile isPySpace) = [] ∨ strip (a.dropWhile isPySpace) = "様".data ∨
      strip (a.dropWhile isPySpace) = "さま".data) :
    processBody pm i raw line ul =
      (none, ul ++ [⟨i, Action.removed_sensitive_blank, strip k0, raw⟩]) := by
  simp only [processBody, if_neg h, hkv, hs]
  simp [hv]

theorem processBody_sensitive_remove {pm : String} {i : Nat} {raw line k0 a : Str}
    {ul : List LogEntry} (h : ¬ strip line = [])
    (hkv : kvMatch line = some (k0, a)) (hs : isSensitiveKey (strip k0) = true)
    (hv : ¬ (strip (a.dropWhile isPySpace) = [] ∨ strip (a.dropWhile isPySpace) = "様".data ∨
      strip (a.dropWhile isPySpace) = "さま".data))
    (hpm : pm = "remove") :
    processBody pm i raw line ul =
      (none, ul ++ [⟨i, Action.removed_sensitive_field, strip k0, raw⟩]) := by
  simp only [processBody, if_neg h, hkv, hs]
  simp [hv, hpm]

theorem processBody_sensitive_mask {pm : String} {i : Nat} {raw line k0 a : Str}
    {ul : List LogEntry} (h : ¬ strip line = [])
    (hkv : kvMatch line = some (k0, a)) (hs : isSensitiveKey (strip k0) = true)
    (hv : ¬ (strip (a.dropWhile isPySpace) = [] ∨ strip (a.dropWhile isPySpace) = "様".data ∨
      strip (a.dropWhile isPySpace) = "さま".data))
    (hpm : ¬ pm = "remove") :
    processBody pm i raw line ul =
      (some (strip k0 ++ "： [MASKED]".data),
       ul ++ [⟨i, Action.masked_sensitive_field, strip k0, raw⟩]) := by
  simp only [processBody, if_neg h, hkv, hs]
  simp [hv, hpm]

theorem processLine_eq (mu : Bool) (pm : String) (i : Nat) (raw : Str) :
    processLine mu pm i raw =
      processBody pm i raw (if mu then urlScan raw else (raw, [])).1
        (mkUrlLogs i (if mu then urlScan raw else (raw, [])).2) := rfl

/-! ## Kept-line invariants (for idempotence) -/

theorem strip_nil : strip [] = [] := rfl

theorem isSensitiveKey_nil : isSensitiveKey [] = false := by decide

theorem maskedLine_chars (mu : Bool) (raw : Str) {c : Char}
    (h : c ∈ (if mu then urlScan raw else (raw, [])).1) : c ∈ raw ∨ c ∈ urlToken := by
  cases mu
  · simp only [if_neg Bool.false_ne_true] at h
    exact Or.inl h
  · simp only [if_pos rfl] at h
    exact urlScan_chars h

theorem mask_suffix_eq : "： [MASKED]".data = '：' :: " [MASKED]".data := rfl

/-- Every line kept in the output by the per-line loop: its characters come
from the raw line, the URL token or the mask suffix; it does not strip to
empty; and re-processing it with `mask_url = false` and the same `pii_mode`
keeps it unchanged, logging nothing except possibly a repeated
`masked_sensitive_field` entry (and nothing at all when
`pii_mode = "remove"`). -/
theorem processLine_kept {mu : Bool} {pm : String} {i : Nat} {raw L : Str}
    (h : (processLine mu pm i raw).1 = some L) :
    (∀ c ∈ L, c ∈ raw ∨ c ∈ urlToken ∨ c ∈ "： [MASKED]".data) ∧
    strip L ≠ [] ∧
    ∀ j : Nat, ∃ lg : List LogEntry,
      processLine false pm j L = (some L, lg) ∧
      (∀ e ∈ lg, e.action = Action.masked_sensitive_field) ∧
      (pm = "remove" → lg = []) := by
  rw [processLine_eq] at h
  set line := (if mu then urlScan raw else (raw, [])).1 with hline
  set ul := mkUrlLogs i (if mu then urlScan raw else (raw, [])).2 with hul
  by_cases hb : strip line = []
  · rw [processBody_blank hb] at h
    simp at h
  · cases hkv : kvMatch line with
    | none =>
      rw [processBody_nokv hb hkv] at h
      have hL : L = line := (Option.some.inj h).symm
      subst hL
      refine ⟨?_, hb, ?_⟩
      · intro c hc
        rcases maskedLine_chars mu raw hc with h1 | h1
        · exact Or.inl h1
        · exact Or.inr (Or.inl h1)
      · intro j
        have hPL : processLine false pm j line = processBody pm j line line [] := rfl
        refine ⟨[], ?_, by simp, fun _ => rfl⟩
        rw [hPL, processBody_nokv hb hkv]
    | some p =>
      cases p with
      | mk k0 a =>
        by_cases hs : isSensitiveKey (strip k0) = true
        · by_cases hv : strip (a.dropWhile isPySpace) = [] ∨
            strip (a.dropWhile isPySpace) = "様".data ∨
            strip (a.dropWhile isPySpace) = "さま".data
          · rw [processBody_sensitive_blank hb hkv hs hv] at h
            simp at h
          · by_cases hpm : pm = "remove"
            · rw [processBody_sensitive_remove hb hkv hs hv hpm] at h
              simp at h
            · rw [processBody_sensitive_mask hb hkv hs hv hpm] at h
              have hL : L = strip k0 ++ "： [MASKED]".data := (Option.some.inj h).symm
              obtain ⟨hk0ne, hk0free, c0, hc0, hdecomp⟩ := kvMatch_eq_some hkv
              have hkeyne : strip k0 ≠ [] := by
                intro hnil
                rw [hnil, isSensitiveKey_nil] at hs
                exact Bool.false_ne_true hs
              have hkeyfree : ∀ c ∈ strip k0, isColonChar c = false :=
                fun c hc => hk0free c (mem_of_mem_strip hc)
              have hMmem : 'M' ∈ L := by
                rw [hL]
                refine List.mem_append_right _ ?_
                decide
              have hstripL : strip L ≠ [] := strip_ne_nil hMmem (by decide)
              refine ⟨?_, hstripL, ?_⟩
              · intro c hc
                rw [hL] at hc
                rcases List.mem_append.mp hc with h1 | h1
                · have hck0 : c ∈ k0 := mem_of_mem_strip h1
                  have hcline : c ∈ line := by
                    rw [hdecomp]
                    exact List.mem_append_left _ hck0
                  rcases maskedLine_chars mu raw hcline with h2 | h2
                  · exact Or.inl h2
                  · exact Or.inr (Or.inl h2)
                · exact Or.inr (Or.inr h1)
              · intro j
                have hPL : processLine false pm j L = processBody pm j L L [] := rfl
                have hkvL : kvMatch L = some (strip k0, " [MASKED]".data) := by
                  rw [hL, mask_suffix_eq]
                  exact kvMatch_reconstruct hkeyfree hkeyne (by decide) _
                have hsL : isSensitiveKey (strip (strip k0)) = true := by
                  rw [strip_idem]
                  exact hs
                have hvL : ¬ (strip ((" [MASKED]".data).dropWhile isPySpace) = [] ∨
                    strip ((" [MASKED]".data).dropWhile isPySpace) = "様".data ∨
                    strip ((" [MASKED]".data).dropWhile isPySpace) = "さま".data) := by
                  decide
                refine ⟨[⟨j, Action.masked_sensitive_field, strip (strip k0), L⟩], ?_, ?_, ?_⟩
                · rw [hPL, processBody_sensitive_mask hstripL hkvL hsL hvL hpm]
                  rw [strip_idem, ← hL]
                  simp
                · intro e he
                  simp only [List.mem_singleton] at he
                  subst he
                  rfl
                · intro hr
                  exact absurd hr hpm
        · rw [processBody_nonsensitive hb hkv (Bool.not_eq_true _ ▸ hs)] at h
          have hL : L = line := (Option.some.inj h).symm
          subst hL
          refine ⟨?_, hb, ?_⟩
          · intro c hc
            rcases maskedLine_chars mu raw hc with h1 | h1
            · exact Or.inl h1
            · exact Or.inr (Or.inl h1)
          · intro j
            have hPL : processLine false pm j line = processBody pm j line line [] := rfl
            refine ⟨[], ?_, by simp, fun _ => rfl⟩
            rw [hPL, processBody_nonsensitive hb hkv (Bool.not_eq_true _ ▸ hs)]

/-! ## `runLines` lemmas -/

theorem runLines_nil (mu : Bool) (pm : String) (i : Nat) :
    runLines mu pm i [] = ([], []) := rfl

theorem runLines_cons (mu : Bool) (pm : String) (i : Nat) (raw : Str) (rest : List Str) :
    runLines mu pm i (raw :: rest) =
      ((processLine mu pm i raw).1.toList ++ (runLines mu pm (i + 1) rest).1,
       (processLine mu pm i raw).2 ++ (runLines mu pm (i + 1) rest).2) := rfl

theorem runLines_fst_mem (mu : Bool) (pm : String) :
    ∀ (ls : List Str) (i : Nat) (L : Str), L ∈ (runLines mu pm i ls).1 →
      ∃ j raw, raw ∈ ls ∧ (processLine mu pm j raw).1 = some L := by
  intro ls
  induction ls with
  | nil => intro i L h; rw [runLines_nil] at h; simp at h
  | cons raw rest ih =>
    intro i L h
    rw [runLines_cons] at h
    rcases List.mem_append.mp h with h1 | h1
    · cases hp : (processLine mu pm i raw).1 with
      | none => rw [hp] at h1; simp at h1
      | some L0 =>
        rw [hp] at h1
        simp only [Option.toList_some, List.mem_singleton] at h1
        subst h1
        exact ⟨i, raw, by simp, hp⟩
    · obtain ⟨j, raw2, hmem, hj⟩ := ih (i + 1) L h1
      exact ⟨j, raw2, by simp [hmem], hj⟩

theorem runLines_refix (pm : String) :
    ∀ (outs : List Str) (j : Nat),
      (∀ L ∈ outs, ∀ j2 : Nat, ∃ lg : List LogEntry,
        processLine false pm j2 L = (some L, lg) ∧
        (∀ e ∈ lg, e.action = Action.masked_sensitive_field) ∧
        (pm = "remove" → lg = [])) →
      ∃ lgs : List LogEntry, runLines false pm j outs = (outs, lgs) ∧
        (∀ e ∈ lgs, e.action = Action.masked_sensitive_field) ∧
        (pm = "remove" → lgs = []) := by
  intro outs
  induction outs with
  | nil => intro j _; exact ⟨[], rfl, by simp, fun _ => rfl⟩
  | cons L rest ih =>
    intro j h
    obtain ⟨lg, hL, hact, hrm⟩ := h L (by simp) j
    obtain ⟨lgs, hrest, hact2, hrm2⟩ := ih (j + 1) (fun M hM => h M (by simp [hM]))
    refine ⟨lg ++ lgs, ?_, ?_, ?_⟩
    · rw [runLines_cons, hL, hrest]
      simp
    · intro e he
      rcases List.mem_append.mp he with h1 | h1
      · exact hact e h1
      · exact hact2 e h1
    · intro hr
      rw [hrm hr, hrm2 hr]
      rfl

theorem urlToken_break_free : ∀ c ∈ urlToken, isLineBreak c = false := by decide

theorem mask_suffix_break_free : ∀ c ∈ "： [MASKED]".data, isLineBreak c = false := by
  decide

/-- The pieces needed about the output lines of one full pass:
all kept lines are non-empty, line-break free, and re-fix under a second
pass without URL masking. -/
theorem sanitize_output_lines (t : Str) (mu : Bool) (pm : String) :
    ∀ L ∈ (runLines mu pm 1 (splitlines t)).1,
      (L ≠ [] ∧ ∀ c ∈ L, isLineBreak c = false) ∧
      ∀ j2 : Nat, ∃ lg : List LogEntry,
        processLine false pm j2 L = (some L, lg) ∧
        (∀ e ∈ lg, e.action = Action.masked_sensitive_field) ∧
        (pm = "remove" → lg = []) := by
  intro L hL
  obtain ⟨j, raw, hraw, hkept⟩ := runLines_fst_mem mu pm (splitlines t) 1 L hL
  obtain ⟨hchars, hstrip, hfix⟩ := processLine_kept hkept
  refine ⟨⟨?_, ?_⟩, hfix⟩
  · intro hnil
    rw [hnil] at hstrip
    exact hstrip strip_nil
  · intro c hc
    rcases hchars c hc with h1 | h1 | h1
    · exact splitlines_break_free t raw hraw c h1
    · exact urlToken_break_free c h1
    · exact mask_suffix_break_free c h1

/-! ## Claim C1 -/

/-- C1 (amended): re-sanitizing the cleaned text with `mask_url = false` and
the same `pii_mode` always returns the cleaned text unchanged; the second
run's log is empty when `pii_mode = "remove"`, and in general every entry of
the second run's log is a `masked_sensitive_field` entry re-masking an
already-masked line (so the log need not be empty, contrary to the original
claim). -/
theorem sanitize_input_idempotent (t : Str) (mu : Bool) (pm : String) :
    (sanitize_input (sanitize_input t mu pm).1 false pm).1 = (sanitize_input t mu pm).1 ∧
    (pm = "remove" → (sanitize_input (sanitize_input t mu pm).1 false pm).2 = []) ∧
    (∀ e ∈ (sanitize_input (sanitize_input t mu pm).1 false pm).2,
      e.action = Action.masked_sensitive_field) := by
  have houts := sanitize_output_lines t mu pm
  set outs := (runLines mu pm 1 (splitlines t)).1 with houtsdef
  have hsplit : splitlines (joinNL outs) = outs :=
    splitlines_joinNL outs (fun piece hp => (houts piece hp).1)
  obtain ⟨lgs, hrun, hact, hrm⟩ := runLines_refix pm outs 1 (fun L hL => (houts L hL).2)
  have hfst : (sanitize_input t mu pm).1 = joinNL outs := rfl
  have hx : sanitize_input (joinNL outs) false pm = (joinNL outs, lgs) := by
    show (joinNL (runLines false pm 1 (splitlines (joinNL outs))).1,
          (runLines false pm 1 (splitlines (joinNL outs))).2) = (joinNL outs, lgs)
    rw [hsplit, hrun]
  rw [hfst, hx]
  exact ⟨rfl, fun hr => hrm hr, fun e he => hact e he⟩

/-- C1 (counterexample): on `"氏名：a"` with `pii_mode = "mask"`, the first
run masks the name line; re-sanitizing the cleaned text re-masks it and logs
a `masked_sensitive_field` entry, so the second run's log is not empty as
the original claim requires. -/
theorem sanitize_input_idem_cex :
    (sanitize_input (sanitize_input "氏名：a".data true "mask").1 false "mask").2 ≠ [] := by
  decide

/-- C1 (witness): the amended claim at a concrete input in `"remove"` mode:
identical text and an empty second-run log. -/
theorem sanitize_input_idempotent_witness :
    (sanitize_input (sanitize_input "氏名：a\nメモ：x".data true "remove").1 false "remove").1
      = (sanitize_input "氏名：a\nメモ：x".data true "remove").1 ∧
    (sanitize_input (sanitize_input "氏名：a\nメモ：x".data true "remove").1 false "remove").2
      = [] :=
  ⟨(sanitize_input_idempotent "氏名：a\nメモ：x".data true "remove").1,
   (sanitize_input_idempotent "氏名：a\nメモ：x".data true "remove").2.1 rfl⟩

/-! ## Claims C3–C6: per-line classification -/

theorem exists_nonspace_of_strip_ne_nil {l : Str} (h : strip l ≠ []) :
    ∃ c ∈ l, isPySpace c = false := by
  by_contra hc
  push_neg at hc
  refine h (strip_eq_nil_iff.mpr ?_)
  intro c hcl
  have := hc c hcl
  cases hb : isPySpace c with
  | true => rfl
  | false => exact absurd hb this

theorem strip_key_ne_nil_of_sensitive {k0 : Str} (hs : isSensitiveKey (strip k0) = true) :
    strip k0 ≠ [] := by
  intro hnil
  rw [hnil, isSensitiveKey_nil] at hs
  exact Bool.false_ne_true hs

theorem strip_line_ne_nil {line x : Str}
    (hsub : ∀ c ∈ x, c ∈ line) (hx : strip x ≠ []) :
    ¬ strip line = [] := by
  obtain ⟨c, hc, hcws⟩ := exists_nonspace_of_strip_ne_nil hx
  exact strip_ne_nil (hsub c hc) hcws

/-- C3: a line whose key strips to a string containing a sensitive field
name, with a non-empty, non-honorific stripped value, is kept in `"mask"`
mode as `key ++ "： [MASKED]"`, with exactly one `masked_sensitive_field`
log entry carrying the stripped key and the raw pre-masking line; in
particular `"氏名：山田太郎"` becomes `"氏名： [MASKED]"`. -/
theorem sensitive_mask_line (mu : Bool) (i : Nat) (raw k0 a : Str)
    (hkv : kvMatch (if mu then urlScan raw else (raw, [])).1 = some (k0, a))
    (hs : isSensitiveKey (strip k0) = true)
    (hv1 : strip (a.dropWhile isPySpace) ≠ [])
    (hv2 : strip (a.dropWhile isPySpace) ≠ "様".data)
    (hv3 : strip (a.dropWhile isPySpace) ≠ "さま".data) :
    processLine mu "mask" i raw =
      (some (strip k0 ++ "： [MASKED]".data),
       mkUrlLogs i (if mu then urlScan raw else (raw, [])).2 ++
         [⟨i, Action.masked_sensitive_field, strip k0, raw⟩]) ∧
    sanitize_input "氏名：山田太郎".data true "mask" =
      ("氏名： [MASKED]".data,
       [⟨1, Action.masked_sensitive_field, "氏名".data, "氏名：山田太郎".data⟩]) := by
  constructor
  · obtain ⟨-, -, c0, -, hdecomp⟩ := kvMatch_eq_some hkv
    have hb : ¬ strip (if mu then urlScan raw else (raw, [])).1 = [] := by
      refine strip_line_ne_nil (x := a.dropWhile isPySpace) ?_ hv1
      intro c hc
      rw [hdecomp]
      exact List.mem_append_right _ (List.mem_cons_of_mem _ (mem_of_mem_dropWhile hc))
    rw [processLine_eq,
        processBody_sensitive_mask hb hkv hs (by simp [hv1, hv2, hv3]) (by decide)]
  · decide

/-- C4: a sensitive line whose stripped value is empty or exactly one of the
honorific tokens `様` / `さま` is dropped with a `removed_sensitive_blank`
entry under every `pii_mode` — the mask/remove distinction never applies;
in particular `"氏名：様"` is dropped, not masked, in `"mask"` mode. -/
theorem sensitive_blank_line (mu : Bool) (pm : String) (i : Nat) (raw k0 a : Str)
    (hkv : kvMatch (if mu then urlScan raw else (raw, [])).1 = some (k0, a))
    (hs : isSensitiveKey (strip k0) = true)
    (hv : strip (a.dropWhile isPySpace) = [] ∨ strip (a.dropWhile isPySpace) = "様".data ∨
      strip (a.dropWhile isPySpace) = "さま".data) :
    processLine mu pm i raw =
      (none,
       mkUrlLogs i (if mu then urlScan raw else (raw, [])).2 ++
         [⟨i, Action.removed_sensitive_blank, strip k0, raw⟩]) ∧
    sanitize_input "氏名：様".data true "mask" =
      ([], [⟨1, Action.removed_sensitive_blank, "氏名".data, "氏名：様".data⟩]) := by
  constructor
  · obtain ⟨-, -, c0, -, hdecomp⟩ := kvMatch_eq_some hkv
    have hb : ¬ strip (if mu then urlScan raw else (raw, [])).1 = [] := by
      refine strip_line_ne_nil (x := k0) ?_ (strip_key_ne_nil_of_sensitive hs)
      intro c hc
      rw [hdecomp]
      exact List.mem_append_left _ hc
    rw [processLine_eq, processBody_sensitive_blank hb hkv hs hv]
  · decide

/-- C5: a sensitive line with a non-empty, non-honorific stripped value is
dropped entirely in `"remove"` mode, with exactly one
`removed_sensitive_field` entry carrying the stripped key and the raw line. -/
theorem sensitive_remove_line (mu : Bool) (i : Nat) (raw k0 a : Str)
    (hkv : kvMatch (if mu then urlScan raw else (raw, [])).1 = some (k0, a))
    (hs : isSensitiveKey (strip k0) = true)
    (hv1 : strip (a.dropWhile isPySpace) ≠ [])
    (hv2 : strip (a.dropWhile isPySpace) ≠ "様".data)
    (hv3 : strip (a.dropWhile isPySpace) ≠ "さま".data) :
    processLine mu "remove" i raw =
      (none,
       mkUrlLogs i (if mu then urlScan raw else (raw, [])).2 ++
         [⟨i, Action.removed_sensitive_field, strip k0, raw⟩]) ∧
    sanitize_input "氏名：山田太郎".data true "remove" =
      ([], [⟨1, Action.removed_sensitive_field, "氏名".data, "氏名：山田太郎".data⟩]) := by
  constructor
  · obtain ⟨-, -, c0, -, hdecomp⟩ := kvMatch_eq_some hkv
    have hb : ¬ strip (if mu then urlScan raw else (raw, [])).1 = [] := by
      refine strip_line_ne_nil (x := a.dropWhile isPySpace) ?_ hv1
      intro c hc
      rw [hdecomp]
      exact List.mem_append_right _ (List.mem_cons_of_mem _ (mem_of_mem_dropWhile hc))
    rw [processLine_eq,
        processBody_sensitive_remove hb hkv hs (by simp [hv1, hv2, hv3]) rfl]
  · decide

/-- C6: a line that is empty or whitespace-only after URL masking is dropped
with a `removed_empty_line` entry whose `original` is the raw line before
URL masking; in particular `"a\n\n  \nb"` yields `"a\nb"` and two
`removed_empty_line` entries at line numbers 2 and 3, under every
configuration. -/
theorem blank_line_removed (mu : Bool) (pm : String) (i : Nat) (raw : Str)
    (hb : strip (if mu then urlScan raw else (raw, [])).1 = []) :
    processLine mu pm i raw =
      (none,
       mkUrlLogs i (if mu then urlScan raw else (raw, [])).2 ++
         [⟨i, Action.removed_empty_line, [], raw⟩]) ∧
    ∀ (mu2 : Bool) (pm2 : String),
      sanitize_input "a\n\n  \nb".data mu2 pm2 =
        ("a\nb".data,
         [⟨2, Action.removed_empty_line, [], []⟩,
          ⟨3, Action.removed_empty_line, [], "  ".data⟩]) := by
  constructor
  · rw [processLine_eq, processBody_blank hb]
  · intro mu2 pm2
    cases mu2 <;> rfl

/-- C3 (witness): the masking theorem applied at `"氏名：山田太郎"`. -/
theorem sensitive_mask_line_witness :
    processLine false "mask" 1 "氏名：山田太郎".data =
      (some "氏名： [MASKED]".data,
       [⟨1, Action.masked_sensitive_field, "氏名".data, "氏名：山田太郎".data⟩]) := by
  have h := (sensitive_mask_line false 1 "氏名：山田太郎".data "氏名".data "山田太郎".data
    (by decide) (by decide) (by decide) (by decide) (by decide)).1
  exact h

/-- C4 (witness): the blank-honorific theorem applied at `"氏名：様"` in
`"mask"` mode. -/
theorem sensitive_blank_line_witness :
    processLine false "mask" 1 "氏名：様".data =
      (none, [⟨1, Action.removed_sensitive_blank, "氏名".data, "氏名：様".data⟩]) := by
  have h := (sensitive_blank_line false "mask" 1 "氏名：様".data "氏名".data "様".data
    (by decide) (by decide) (by decide)).1
  exact h

/-- C5 (witness): the remove-mode theorem applied at `"氏名：山田太郎"`. -/
theorem sensitive_remove_line_witness :
    processLine false "remove" 1 "氏名：山田太郎".data =
      (none, [⟨1, Action.removed_sensitive_field, "氏名".data, "氏名：山田太郎".data⟩]) := by
  have h := (sensitive_remove_line false 1 "氏名：山田太郎".data "氏名".data "山田太郎".data
    (by decide) (by decide) (by decide) (by decide) (by decide)).1
  exact h

/-- C6 (witness): the blank-line theorem applied at the whitespace line
`"  "` (line number 2), plus the concrete four-line example. -/
theorem blank_line_removed_witness :
    processLine false "mask" 2 "  ".data =
      (none, [⟨2, Action.removed_empty_line, [], "  ".data⟩]) ∧
    sanitize_input "a\n\n  \nb".data true "mask" =
      ("a\nb".data,
       [⟨2, Action.removed_empty_line, [], []⟩,
        ⟨3, Action.removed_empty_line, [], "  ".data⟩]) := by
  have h := blank_line_removed false "mask" 2 "  ".data (by decide)
  exact ⟨h.1, h.2 true "mask"⟩

/-! ## Claim C9: empty input and trailing newline -/

/-- C9: sanitizing the empty string returns `("", [])` (no
`removed_empty_line` entry), and a single trailing newline yields no extra
line: `"a\n"` returns `("a", [])`, because `splitlines` produces no final
empty piece and the output carries no trailing newline. -/
theorem sanitize_input_empty_input (mu : Bool) (pm : String) :
    sanitize_input [] mu pm = ([], []) ∧
    sanitize_input "a\n".data mu pm = ("a".data, []) ∧
    splitlines [] = [] ∧
    splitlines "a\n".data = ["a".data] := by
  refine ⟨rfl, ?_, rfl, rfl⟩
  cases mu <;> rfl

/-! ## Claim C8: line accounting -/

theorem filter_isRemoval_mkUrlLogs (i : Nat) (us : List Str) :
    (mkUrlLogs i us).filter isRemoval = [] := by
  rw [List.filter_eq_nil_iff]
  intro e he
  simp only [mkUrlLogs, List.mem_map] at he
  obtain ⟨u, -, hu⟩ := he
  subst hu
  simp [isRemoval]

/-- C8 (per line): every input line contributes exactly one of: one kept
output line, or exactly one removal log entry
(`removed_empty_line` / `removed_sensitive_blank` / `removed_sensitive_field`). -/
theorem processLine_one_contribution (mu : Bool) (pm : String) (i : Nat) (raw : Str) :
    (processLine mu pm i raw).1.toList.length +
      ((processLine mu pm i raw).2.filter isRemoval).length = 1 := by
  rw [processLine_eq]
  set line := (if mu then urlScan raw else (raw, [])).1 with hline
  set ul := mkUrlLogs i (if mu then urlScan raw else (raw, [])).2 with hul
  have hulf : ul.filter isRemoval = [] := filter_isRemoval_mkUrlLogs _ _
  by_cases hb : strip line = []
  · rw [processBody_blank hb]
    simp [List.filter_append, hulf, isRemoval]
  · cases hkv : kvMatch line with
    | none => rw [processBody_nokv hb hkv]; simp [hulf]
    | some p =>
      cases p with
      | mk k0 a =>
        by_cases hs : isSensitiveKey (strip k0) = true
        · by_cases hv : strip (a.dropWhile isPySpace) = [] ∨
            strip (a.dropWhile isPySpace) = "様".data ∨
            strip (a.dropWhile isPySpace) = "さま".data
          · rw [processBody_sensitive_blank hb hkv hs hv]
            simp [List.filter_append, hulf, isRemoval]
          · by_cases hpm : pm = "remove"
            · rw [processBody_sensitive_remove hb hkv hs hv hpm]
              simp [List.filter_append, hulf, isRemoval]
            · rw [processBody_sensitive_mask hb hkv hs hv hpm]
              simp [List.filter_append, hulf, isRemoval]
        · rw [processBody_nonsensitive hb hkv (Bool.not_eq_true _ ▸ hs)]
          simp [hulf]

theorem runLines_count (mu : Bool) (pm : String) :
    ∀ (ls : List Str) (i : Nat),
      (runLines mu pm i ls).1.length +
        ((runLines mu pm i ls).2.filter isRemoval).length = ls.length := by
  intro ls
  induction ls with
  | nil => intro i; rfl
  | cons raw rest ih =>
    intro i
    rw [runLines_cons]
    simp only [List.length_append, List.filter_append]
    have h1 := processLine_one_contribution mu pm i raw
    have h2 := ih (i + 1)
    simp only [List.length_cons]
    omega

/-- C8: each input line contributes exactly one of a kept output line or a
single removal log entry; hence the number of lines of the cleaned text plus
the number of removal log entries equals the number of input lines. -/
theorem sanitize_line_accounting (t : Str) (mu : Bool) (pm : String) :
    (∀ (i : Nat) (raw : Str),
      (processLine mu pm i raw).1.toList.length +
        ((processLine mu pm i raw).2.filter isRemoval).length = 1) ∧
    (splitlines (sanitize_input t mu pm).1).length +
      ((sanitize_input t mu pm).2.filter isRemoval).length = (splitlines t).length := by
  refine ⟨fun i raw => processLine_one_contribution mu pm i raw, ?_⟩
  have houts := sanitize_output_lines t mu pm
  have hsplit : splitlines (joinNL (runLines mu pm 1 (splitlines t)).1) =
      (runLines mu pm 1 (splitlines t)).1 :=
    splitlines_joinNL _ (fun piece hp => (houts piece hp).1)
  have hfst : (sanitize_input t mu pm).1 = joinNL (runLines mu pm 1 (splitlines t)).1 := rfl
  have hsnd : (sanitize_input t mu pm).2 = (runLines mu pm 1 (splitlines t)).2 := rfl
  rw [hfst, hsnd, hsplit]
  exact runLines_count mu pm (splitlines t) 1

/-- C8 (witness): the accounting identity at the concrete input
`"a\n\n氏名：x\nb"` in `"remove"` mode: two kept lines plus two removal
entries account for the four input lines. -/
theorem sanitize_line_accounting_witness :
    (splitlines (sanitize_input "a\n\n氏名：x\nb".data true "remove").1).length +
      ((sanitize_input "a\n\n氏名：x\nb".data true "remove").2.filter isRemoval).length
      = (splitlines "a\n\n氏名：x\nb".data).length :=
  (sanitize_line_accounting "a\n\n氏名：x\nb".data true "remove").2

/-! ## Claim C7: log ordering -/

theorem mem_mkUrlLogs {i : Nat} {us : List Str} {e : LogEntry} (h : e ∈ mkUrlLogs i us) :
    e.line_no = i ∧ e.action = Action.masked_url := by
  simp only [mkUrlLogs, List.mem_map] at h
  obtain ⟨u, -, hu⟩ := h
  subst hu
  exact ⟨rfl, rfl⟩

theorem processLine_log_structure (mu : Bool) (pm : String) (i : Nat) (raw : Str) :
    ∃ cls : List LogEntry,
      (processLine mu pm i raw).2 =
        mkUrlLogs i (if mu then urlScan raw else (raw, [])).2 ++ cls ∧
      cls.length ≤ 1 ∧
      (∀ e ∈ cls, e.action ≠ Action.masked_url ∧ e.line_no = i) := by
  rw [processLine_eq]
  set line := (if mu then urlScan raw else (raw, [])).1 with hline
  by_cases hb : strip line = []
  · rw [processBody_blank hb]
    exact ⟨[⟨i, Action.removed_empty_line, [], raw⟩], rfl, by simp,
      by intro e he; simp only [List.mem_singleton] at he; subst he; exact ⟨by simp, rfl⟩⟩
  · cases hkv : kvMatch line with
    | none =>
      rw [processBody_nokv hb hkv]
      exact ⟨[], by simp, by simp, by simp⟩
    | some p =>
      cases p with
      | mk k0 a =>
        by_cases hs : isSensitiveKey (strip k0) = true
        · by_cases hv : strip (a.dropWhile isPySpace) = [] ∨
            strip (a.dropWhile isPySpace) = "様".data ∨
            strip (a.dropWhile isPySpace) = "さま".data
          · rw [processBody_sensitive_blank hb hkv hs hv]
            exact ⟨[⟨i, Action.removed_sensitive_blank, strip k0, raw⟩], rfl, by simp,
              by intro e he; simp only [List.mem_singleton] at he; subst he
                 exact ⟨by simp, rfl⟩⟩
          · by_cases hpm : pm = "remove"
            · rw [processBody_sensitive_remove hb hkv hs hv hpm]
              exact ⟨[⟨i, Action.removed_sensitive_field, strip k0, raw⟩], rfl, by simp,
                by intro e he; simp only [List.mem_singleton] at he; subst he
                   exact ⟨by simp, rfl⟩⟩
            · rw [processBody_sensitive_mask hb hkv hs hv hpm]
              exact ⟨[⟨i, Action.masked_sensitive_field, strip k0, raw⟩], rfl, by simp,
                by intro e he; simp only [List.mem_singleton] at he; subst he
                   exact ⟨by simp, rfl⟩⟩
        · rw [processBody_nonsensitive hb hkv (Bool.not_eq_true _ ▸ hs)]
          exact ⟨[], by simp, by simp, by simp⟩

theorem processLine_entry_line_no (mu : Bool) (pm : String) (i : Nat) (raw : Str) :
    ∀ e ∈ (processLine mu pm i raw).2, e.line_no = i := by
  obtain ⟨cls, heq, -, hcls⟩ := processLine_log_structure mu pm i raw
  intro e he
  rw [heq] at he
  rcases List.mem_append.mp he with h | h
  · exact (mem_mkUrlLogs h).1
  · exact (hcls e h).2

theorem processLine_filter_url (mu : Bool) (pm : String) (i : Nat) (raw : Str) :
    (processLine mu pm i raw).2.filter (fun e => decide (e.action = Action.masked_url)) =
      mkUrlLogs i (if mu then urlScan raw else (raw, [])).2 := by
  obtain ⟨cls, heq, -, hcls⟩ := processLine_log_structure mu pm i raw
  rw [heq, List.filter_append]
  have h1 : (mkUrlLogs i (if mu then urlScan raw else (raw, [])).2).filter
      (fun e => decide (e.action = Action.masked_url)) =
      mkUrlLogs i (if mu then urlScan raw else (raw, [])).2 :=
    List.filter_eq_self.mpr (fun e he => by simp [(mem_mkUrlLogs he).2])
  have h2 : cls.filter (fun e => decide (e.action = Action.masked_url)) = [] :=
    List.filter_eq_nil_iff.mpr (fun e he => by simp [(hcls e he).1])
  rw [h1, h2, List.append_nil]

theorem runLines_line_no_ge (mu : Bool) (pm : String) :
    ∀ (ls : List Str) (i : Nat), ∀ e ∈ (runLines mu pm i ls).2, i ≤ e.line_no := by
  intro ls
  induction ls with
  | nil => intro i e he; rw [runLines_nil] at he; simp at he
  | cons raw rest ih =>
    intro i e he
    rw [runLines_cons] at he
    rcases List.mem_append.mp he with h | h
    · exact le_of_eq (processLine_entry_line_no mu pm i raw e h).symm
    · exact le_trans (by omega) (ih (i + 1) e h)

theorem runLines_sorted (mu : Bool) (pm : String) :
    ∀ (ls : List Str) (i : Nat),
      List.Pairwise (fun a b => a ≤ b) ((runLines mu pm i ls).2.map LogEntry.line_no) := by
  intro ls
  induction ls with
  | nil => intro i; rw [runLines_nil]; simp
  | cons raw rest ih =>
    intro i
    rw [runLines_cons, List.map_append, List.pairwise_append]
    refine ⟨?_, ih (i + 1), ?_⟩
    · rw [List.pairwise_map]
      refine List.pairwise_of_forall_mem_list ?_
      intro a ha b hb
      rw [processLine_entry_line_no mu pm i raw a ha,
          processLine_entry_line_no mu pm i raw b hb]
    · intro a ha b hb
      rcases List.mem_map.mp ha with ⟨e1, he1, h1⟩
      rcases List.mem_map.mp hb with ⟨e2, he2, h2⟩
      subst h1
      subst h2
      rw [processLine_entry_line_no mu pm i raw e1 he1]
      exact le_trans (by omega) (runLines_line_no_ge mu pm rest (i + 1) e2 he2)

theorem runLines_filter_line (mu : Bool) (pm : String) :
    ∀ (ls : List Str) (i j : Nat),
      (runLines mu pm i ls).2.filter (fun e => decide (e.line_no = j)) =
        if i ≤ j ∧ j < i + ls.length then (processLine mu pm j (ls.getD (j - i) [])).2
        else [] := by
  intro ls
  induction ls with
  | nil =>
    intro i j
    rw [runLines_nil]
    simp only [List.length_nil]
    rw [if_neg (by omega)]
    rfl
  | cons raw rest ih =>
    intro i j
    rw [runLines_cons, List.filter_append]
    by_cases hij : j = i
    · subst hij
      have h1 : (processLine mu pm j raw).2.filter (fun e => decide (e.line_no = j)) =
          (processLine mu pm j raw).2 :=
        List.filter_eq_self.mpr (fun e he => by
          simp [processLine_entry_line_no mu pm j raw e he])
      have h2 : (runLines mu pm (j + 1) rest).2.filter
          (fun e => decide (e.line_no = j)) = [] :=
        List.filter_eq_nil_iff.mpr (fun e he => by
          have := runLines_line_no_ge mu pm rest (j + 1) e he
          simp only [decide_eq_true_eq]
          omega)
      rw [h1, h2, if_pos (by simp only [List.length_cons]; omega)]
      simp
    · have h1 : (processLine mu pm i raw).2.filter (fun e => decide (e.line_no = j)) = [] :=
        List.filter_eq_nil_iff.mpr (fun e he => by
          have := processLine_entry_line_no mu pm i raw e he
          simp only [decide_eq_true_eq]
          omega)
      rw [h1, List.nil_append, ih (i + 1) j]
      by_cases hcond : i + 1 ≤ j ∧ j < i + 1 + rest.length
      · rw [if_pos hcond, if_pos (by simp only [List.length_cons]; omega)]
        have hsub : j - i = (j - (i + 1)) + 1 := by omega
        rw [hsub]
        rfl
      · rw [if_neg hcond, if_neg (by simp only [List.length_cons]; omega)]

theorem mkUrlLogs_map_original (i : Nat) (us : List Str) :
    (mkUrlLogs i us).map LogEntry.original = us := by
  induction us with
  | nil => rfl
  | cons u t ih => simp only [mkUrlLogs, List.map_cons] at ih ⊢; rw [ih]

/-- C7: the log of `sanitize_input` is ordered: `line_no` is non-decreasing;
within a line, the `masked_url` entries come first, in left-to-right match
order (their `original`s are exactly the ordered regex matches of the line),
followed by at most one classification entry, which is never `masked_url`. -/
theorem sanitize_log_order (t : Str) (mu : Bool) (pm : String) :
    List.Pairwise (fun a b => a ≤ b) ((sanitize_input t mu pm).2.map LogEntry.line_no) ∧
    (∀ j : Nat,
      ((sanitize_input t mu pm).2.filter
        (fun e => decide (e.line_no = j + 1 ∧ e.action = Action.masked_url))).map
          LogEntry.original
        = (if mu then urlMatches ((splitlines t).getD j []) else [])) ∧
    (∀ j : Nat, ∃ cls : List LogEntry,
      (sanitize_input t mu pm).2.filter (fun e => decide (e.line_no = j + 1)) =
        ((sanitize_input t mu pm).2.filter
          (fun e => decide (e.line_no = j + 1 ∧ e.action = Action.masked_url))) ++ cls ∧
      cls.length ≤ 1 ∧ ∀ e ∈ cls, e.action ≠ Action.masked_url) := by
  have hsnd : (sanitize_input t mu pm).2 = (runLines mu pm 1 (splitlines t)).2 := rfl
  have hcomb : ∀ j : Nat, (sanitize_input t mu pm).2.filter
      (fun e => decide (e.line_no = j + 1 ∧ e.action = Action.masked_url)) =
      ((sanitize_input t mu pm).2.filter (fun e => decide (e.line_no = j + 1))).filter
        (fun e => decide (e.action = Action.masked_url)) := by
    intro j
    rw [List.filter_filter]
    exact List.filter_congr (fun e _ => by
      rw [Bool.decide_and]
      exact Bool.and_comm _ _)
  have hfl : ∀ j : Nat, (sanitize_input t mu pm).2.filter
      (fun e => decide (e.line_no = j + 1)) =
      if j < (splitlines t).length
        then (processLine mu pm (j + 1) ((splitlines t).getD j [])).2 else [] := by
    intro j
    rw [hsnd, runLines_filter_line mu pm (splitlines t) 1 (j + 1)]
    by_cases hj : j < (splitlines t).length
    · rw [if_pos (by omega), if_pos hj]
      have : j + 1 - 1 = j := by omega
      rw [this]
    · rw [if_neg (by omega), if_neg hj]
  refine ⟨?_, ?_, ?_⟩
  · rw [hsnd]
    exact runLines_sorted mu pm (splitlines t) 1
  · intro j
    rw [hcomb j, hfl j]
    by_cases hj : j < (splitlines t).length
    · rw [if_pos hj, processLine_filter_url, mkUrlLogs_map_original]
      cases mu
      · simp
      · simp [urlScan_snd_eq_matches]
    · rw [if_neg hj]
      have hd : (splitlines t).getD j [] = [] := List.getD_eq_default _ _ (by omega)
      rw [hd]
      have : urlMatches ([] : Str) = [] := rfl
      rw [this, ite_self]
      rfl
  · intro j
    rw [hcomb j, hfl j]
    by_cases hj : j < (splitlines t).length
    · rw [if_pos hj, processLine_filter_url]
      obtain ⟨cls, heq, hlen, hcls⟩ :=
        processLine_log_structure mu pm (j + 1) ((splitlines t).getD j [])
      exact ⟨cls, heq, hlen, fun e he => (hcls e he).1⟩
    · rw [if_neg hj]
      exact ⟨[], by simp, by simp, by simp⟩

/-- C7 (witness): the per-line masked-URL originals at a concrete input:
on line 1 of `"x http://a y\n氏名：様"` the single `masked_url` entry's
`original` is the exact match `"http://a"`. -/
theorem sanitize_log_order_witness :
    ((sanitize_input "x http://a y\n氏名：様".data true "mask").2.filter
      (fun e => decide (e.line_no = 1 ∧ e.action = Action.masked_url))).map
        LogEntry.original = ["http://a".data] := by
  have h := (sanitize_log_order "x http://a y\n氏名：様".data true "mask").2.1 0
  exact h.trans (by decide)

/-! ## Claim C2: URL replacement -/

theorem runLines_url_log (mu : Bool) (pm : String) :
    ∀ (ls : List Str) (i : Nat),
      ((runLines mu pm i ls).2.filter
        (fun e => decide (e.action = Action.masked_url))).map LogEntry.original
      = (ls.map (fun raw => (if mu then urlScan raw else (raw, [])).2)).flatten := by
  intro ls
  induction ls with
  | nil => intro i; rfl
  | cons raw rest ih =>
    intro i
    rw [runLines_cons, List.filter_append, List.map_append, processLine_filter_url,
        mkUrlLogs_map_original, ih (i + 1)]
    rfl

theorem processLine_fst_eq (mu : Bool) (pm : String) (i j : Nat) (raw : Str) :
    (processLine mu pm i raw).1 = (processLine mu pm j raw).1 := by
  rw [processLine_eq, processLine_eq]
  set line := (if mu then urlScan raw else (raw, [])).1 with hline
  by_cases hb : strip line = []
  · rw [processBody_blank hb, processBody_blank hb]
  · cases hkv : kvMatch line with
    | none => rw [processBody_nokv hb hkv, processBody_nokv hb hkv]
    | some p =>
      cases p with
      | mk k0 a =>
        by_cases hs : isSensitiveKey (strip k0) = true
        · by_cases hv : strip (a.dropWhile isPySpace) = [] ∨
            strip (a.dropWhile isPySpace) = "様".data ∨
            strip (a.dropWhile isPySpace) = "さま".data
          · rw [processBody_sensitive_blank hb hkv hs hv,
                processBody_sensitive_blank hb hkv hs hv]
          · by_cases hpm : pm = "remove"
            · rw [processBody_sensitive_remove hb hkv hs hv hpm,
                  processBody_sensitive_remove hb hkv hs hv hpm]
            · rw [processBody_sensitive_mask hb hkv hs hv hpm,
                  processBody_sensitive_mask hb hkv hs hv hpm]
        · rw [processBody_nonsensitive hb hkv (Bool.not_eq_true _ ▸ hs),
              processBody_nonsensitive hb hkv (Bool.not_eq_true _ ▸ hs)]

theorem runLines_fst_map (mu : Bool) (pm : String) :
    ∀ (ls : List Str) (i : Nat),
      (∀ raw ∈ ls, (processLine mu pm 1 raw).1 = some ((urlScan raw).1)) →
      (runLines mu pm i ls).1 = ls.map (fun raw => (urlScan raw).1) := by
  intro ls
  induction ls with
  | nil => intro i _; rfl
  | cons raw rest ih =>
    intro i h
    rw [runLines_cons]
    have h1 : (processLine mu pm i raw).1 = some ((urlScan raw).1) :=
      (processLine_fst_eq mu pm i 1 raw).trans (h raw (by simp))
    rw [h1, ih (i + 1) (fun r hr => h r (by simp [hr]))]
    rfl

theorem countSub_urlToken_joinNL :
    ∀ outs : List Str,
      countSub urlToken (joinNL outs) = (outs.map (countSub urlToken)).sum := by
  intro outs
  induction outs with
  | nil => rfl
  | cons x rest ih =>
    cases rest with
    | nil => simp [joinNL]
    | cons y rest2 =>
      have hj : joinNL (x :: y :: rest2) = x ++ '\n' :: joinNL (y :: rest2) := rfl
      rw [hj, countSub_append_sep (by decide) (by decide), ih]
      simp

/-- C2 (amended): with `mask_url = true`, for *every* input the log's
`masked_url` entries are, in order, exactly the disjoint regex matches of
the input's lines (so exactly N entries for N matches, each `original` the
exact matched substring); and the cleaned text contains exactly N literal
`[URL]` tokens provided no input line already contains a literal `[URL]`
substring and every line is kept as a plain line (none is dropped or
value-masked after URL masking) — without those provisos the token count
can differ, see the counterexample. -/
theorem url_masking_log_and_tokens (t : Str) (pm : String) :
    (((sanitize_input t true pm).2.filter
      (fun e => decide (e.action = Action.masked_url))).map LogEntry.original
      = ((splitlines t).map urlMatches).flatten) ∧
    ((∀ raw ∈ splitlines t, countSub urlToken raw = 0) →
      (∀ raw ∈ splitlines t, (processLine true pm 1 raw).1 = some ((urlScan raw).1)) →
      countSub urlToken (sanitize_input t true pm).1
        = ((splitlines t).map urlMatches).flatten.length) := by
  have hsnd : (sanitize_input t true pm).2 = (runLines true pm 1 (splitlines t)).2 := rfl
  have hmap : (splitlines t).map (fun raw => (if true then urlScan raw else (raw, [])).2)
      = (splitlines t).map urlMatches := by
    refine List.map_congr_left ?_
    intro raw _
    simp [urlScan_snd_eq_matches]
  constructor
  · rw [hsnd, runLines_url_log true pm (splitlines t) 1, hmap]
  · intro hclean hkeep
    have hfst : (sanitize_input t true pm).1 = joinNL (runLines true pm 1 (splitlines t)).1 :=
      rfl
    rw [hfst, runLines_fst_map true pm (splitlines t) 1 hkeep, countSub_urlToken_joinNL,
        List.map_map]
    rw [List.length_flatten, List.map_map]
    refine congrArg List.sum ?_
    refine List.map_congr_left ?_
    intro raw hraw
    show countSub urlToken (urlScan raw).1 = (urlMatches raw).length
    rw [← urlScan_snd_eq_matches]
    exact urlScanF_countSub raw.length raw (hclean raw hraw)

/-- C2 (counterexample): `"氏名：http://x"` contains exactly one disjoint
match of `https?://\S+`, and with `mask_url = true`, `pii_mode = "remove"`
the log does contain the one `masked_url` entry, but the cleaned text is
empty and contains zero literal `[URL]` tokens, not one as the original
claim requires. -/
theorem url_masking_cex :
    splitlines "氏名：http://x".data = ["氏名：http://x".data] ∧
    urlMatches "氏名：http://x".data = ["http://x".data] ∧
    (sanitize_input "氏名：http://x".data true "remove").1 = [] ∧
    countSub urlToken (sanitize_input "氏名：http://x".data true "remove").1 = 0 ∧
    ((sanitize_input "氏名：http://x".data true "remove").2.filter
      (fun e => decide (e.action = Action.masked_url))).map LogEntry.original
      = ["http://x".data] := by
  refine ⟨rfl, rfl, ?_, ?_, ?_⟩ <;> decide

/-- C2 (witness): the amended claim at `"a http://x b\nc https://yy"` (two
matches, two `masked_url` originals, two `[URL]` tokens, the count half's
hypotheses discharged concretely), and the unconditional log half at the
dropped-line input `"氏名：http://x"`. -/
theorem url_masking_witness :
    (((sanitize_input "a http://x b\nc https://yy".data true "mask").2.filter
      (fun e => decide (e.action = Action.masked_url))).map LogEntry.original
      = ["http://x".data, "https://yy".data]) ∧
    countSub urlToken (sanitize_input "a http://x b\nc https://yy".data true "mask").1 = 2 ∧
    (((sanitize_input "氏名：http://x".data true "remove").2.filter
      (fun e => decide (e.action = Action.masked_url))).map LogEntry.original
      = ["http://x".data]) := by
  have h := url_masking_log_and_tokens "a http://x b\nc https://yy".data "mask"
  have h2 := url_masking_log_and_tokens "氏名：http://x".data "remove"
  exact ⟨h.1.trans (by decide), (h.2 (by decide) (by decide)).trans (by decide),
    h2.1.trans (by decide)⟩

/-! ## Claim C10: `get_content_or_none` -/

/-- C10: for every response value, `get_content_or_none` (a total function —
the `try/except` and `getattr` defaults make the source total as well)
returns either `None` or a non-empty string equal to its own strip (no
leading or trailing whitespace); it returns `None` whenever the response is
falsy, the `choices` attribute is missing or empty, the `message` or
`content` attribute is missing, the content is not a string, or the content
is whitespace-only; and on a string content with non-blank strip it returns
exactly that strip. -/
theorem get_content_or_none_spec :
    (∀ r : PyResp, get_content_or_none r = none ∨
      ∃ s, get_content_or_none r = some s ∧ s ≠ [] ∧ strip s = s) ∧
    get_content_or_none PyResp.falsy = none ∧
    get_content_or_none (PyResp.obj none) = none ∧
    get_content_or_none (PyResp.obj (some [])) = none ∧
    (∀ (ch : PyChoice) (rest : List PyChoice), ch.message = none →
      get_content_or_none (PyResp.obj (some (ch :: rest))) = none) ∧
    (∀ (ch : PyChoice) (rest : List PyChoice) (msg : PyMessage),
      ch.message = some msg → msg.content = none →
      get_content_or_none (PyResp.obj (some (ch :: rest))) = none) ∧
    (∀ (ch : PyChoice) (rest : List PyChoice) (msg : PyMessage),
      ch.message = some msg → msg.content = some PyContent.nonStr →
      get_content_or_none (PyResp.obj (some (ch :: rest))) = none) ∧
    (∀ (ch : PyChoice) (rest : List PyChoice) (msg : PyMessage) (s : Str),
      ch.message = some msg → msg.content = some (PyContent.pyStr s) →
      strip s = [] →
      get_content_or_none (PyResp.obj (some (ch :: rest))) = none) ∧
    (∀ (ch : PyChoice) (rest : List PyChoice) (msg : PyMessage) (s : Str),
      ch.message = some msg → msg.content = some (PyContent.pyStr s) →
      strip s ≠ [] →
      get_content_or_none (PyResp.obj (some (ch :: rest))) = some (strip s)) := by
  refine ⟨?_, rfl, rfl, rfl, ?_, ?_, ?_, ?_, ?_⟩
  · intro r
    cases r with
    | falsy => exact Or.inl rfl
    | obj choices =>
      cases choices with
      | none => exact Or.inl rfl
      | some chs =>
        cases chs with
        | nil => exact Or.inl rfl
        | cons ch rest =>
          cases hmsg : ch.message with
          | none => exact Or.inl (by simp [get_content_or_none, hmsg])
          | some msg =>
            cases hct : msg.content with
            | none => exact Or.inl (by simp [get_content_or_none, hmsg, hct])
            | some ct =>
              cases ct with
              | nonStr => exact Or.inl (by simp [get_content_or_none, hmsg, hct])
              | pyStr s =>
                by_cases hb : strip s = []
                · exact Or.inl (by simp [get_content_or_none, hmsg, hct, hb])
                · refine Or.inr ⟨strip s, ?_, hb, strip_idem s⟩
                  simp [get_content_or_none, hmsg, hct, hb]
  · intro ch rest hmsg
    simp [get_content_or_none, hmsg]
  · intro ch rest msg hmsg hct
    simp [get_content_or_none, hmsg, hct]
  · intro ch rest msg hmsg hct
    simp [get_content_or_none, hmsg, hct]
  · intro ch rest msg s hmsg hct hb
    simp [get_content_or_none, hmsg, hct, hb]
  · intro ch rest msg s hmsg hct hb
    simp [get_content_or_none, hmsg, hct, hb]

/-- C10 (witness): the specification applied at two concrete responses:
whitespace-only content yields `none`, and `" hi "` yields the stripped
non-empty `"hi"`. -/
theorem get_content_or_none_witness :
    get_content_or_none
      (PyResp.obj (some [⟨some ⟨some (PyContent.pyStr "  ".data)⟩⟩])) = none ∧
    get_content_or_none
      (PyResp.obj (some [⟨some ⟨some (PyContent.pyStr " hi ".data)⟩⟩])) =
      some "hi".data := by
  constructor
  · exact get_content_or_none_spec.2.2.2.2.2.2.2.1
      ⟨some ⟨some (PyContent.pyStr "  ".data)⟩⟩ []
      ⟨some (PyContent.pyStr "  ".data)⟩ "  ".data rfl rfl (by decide)
  · have h := get_content_or_none_spec.2.2.2.2.2.2.2.2
      ⟨some ⟨some (PyContent.pyStr " hi ".data)⟩⟩ []
      ⟨some (PyContent.pyStr " hi ".data)⟩ " hi ".data rfl rfl (by decide)
    exact h.trans (by decide)

end MekeKon2
